import Mathlib

/-!
Verification of `clint.arguments` (class `Args`), a wrapper around an ordered
list of string tokens.  The Python class is shallowly embedded: the stored
sequence `self._args` becomes a `List String`, fallible operations return
`Option`/`Except`, and the few operations whose behaviour depends on object
identity (list aliasing through `__init__`/`copy`/`pop`) are additionally
modelled over an explicit heap of list cells.
-/

/-- Python string containment `x in arg`, via `List Char`:
`listPrefixAt n h` is `h` starting with `n`. -/
def listPrefixAt : List Char → List Char → Bool
  | [], _ => true
  | _ :: _, [] => false
  | c :: cs, d :: ds => c == d && listPrefixAt cs ds

/-- Whether `n` occurs as a contiguous sublist of `h`. -/
def hasSub (n : List Char) : List Char → Bool
  | [] => listPrefixAt n []
  | h@(_ :: t) => listPrefixAt n h || hasSub n t

/-- Python `x in arg` (substring containment). -/
def strIn (x arg : String) : Bool := hasSub x.toList arg.toList

/-- Python `arg.startswith(x)`. -/
def strStarts (arg x : String) : Bool := listPrefixAt x.toList arg.toList

/-- Modelled from the spec: `clint.utils.is_collection` (the module
`clint/utils.py` is not under `src/`) distinguishes a single string from a
sequence of strings, and `Args` methods dispatch on it.  The dynamic
"string or list of strings" parameter is modelled as a variant type;
`is_collection` is the case split on the constructor. -/
inductive StrArg where
  | str (s : String)
  | list (l : List String)
deriving DecidableEq, Repr

/-- Python exceptions that escape an `Args` method. -/
inductive PyErr where
  | typeError
  | indexError
deriving DecidableEq, Repr

/-- Python `self.all.index(str(x))` wrapped in `try/except ValueError`
(`Args.first`'s inner `_find`): first index of an element equal to `x`,
absent when there is none. -/
def Args.findEq (l : List String) (x : String) : Option Nat :=
  l.findIdx? (fun a => a == x)

/-- Inner `_find` of `Args.first_with`: scan for the first element
containing `x`, then return `self.all.index(arg)` of that element; the
implicit `return None` when the loop finishes becomes `none`. -/
def Args.findSub (l : List String) (x : String) : Option Nat :=
  match l.find? (fun a => strIn x a) with
  | some a => l.findIdx? (fun b => b == a)
  | none => none

/-- Candidate loop of `Args.first` (`for item in x: ...`). -/
def Args.firstList (l : List String) : List String → Option Nat
  | [] => none
  | x :: xs =>
    match Args.findEq l x with
    | some i => some i
    | none => Args.firstList l xs

/-- `Args.first`: first found index of given value (or list of values);
the collection branch returns the first candidate's hit, `None` when no
candidate matches (`if found is not None`). -/
def Args.first (l : List String) (x : StrArg) : Option Nat :=
  match x with
  | .str s => Args.findEq l s
  | .list xs => Args.firstList l xs

/-- Candidate loop of `Args.first_with`, with the `if found:` truthiness
test on the returned index. -/
def Args.firstWithList (l : List String) : List String → Option Nat
  | [] => none
  | x :: xs =>
    match Args.findSub l x with
    | some i => if 0 < i then some i else Args.firstWithList l xs
    | none => Args.firstWithList l xs

/-- `Args.first_with`: first found index containing value (or list of
values).  The collection branch tests `if found:`, so a candidate hit at
index `0` is falsy and the scan moves on to the next candidate. -/
def Args.first_with (l : List String) (x : StrArg) : Option Nat :=
  match x with
  | .str s => Args.findSub l s
  | .list xs => Args.firstWithList l xs

/-- `Args.__contains__` / `Args.contains`: `self.first(x) is not None`. -/
def Args.contains (l : List String) (x : StrArg) : Bool :=
  match Args.first l x with
  | some _ => true
  | none => false

/-- `Args.any_contain`: `bool(self.first_with(x))` — Python truthiness of
an optional index: `None` and `0` are falsy. -/
def Args.any_contain (l : List String) (x : StrArg) : Bool :=
  match Args.first_with l x with
  | some i => i != 0
  | none => false

/-- Python integer indexing `self.all[i]` with negative-index wrapping,
`IndexError` turned into `none` (`Args.get` and `Args.__getitem__`). -/
def Args.get (l : List String) (i : Int) : Option String :=
  let j := if i < 0 then i + (l.length : Int) else i
  if 0 ≤ j then l.get? j.toNat else none

/-- `Args.get_with`: `self.all[self.first_with(x)]`, with no guard: a miss
makes `first_with` return `None` and indexing by `None` raises
`TypeError`; an integer result is always in range. -/
def Args.get_with (l : List String) (x : StrArg) : Except PyErr String :=
  match Args.first_with l x with
  | some i =>
    match l.get? i with
    | some v => Except.ok v
    | none => Except.error PyErr.indexError
  | none => Except.error PyErr.typeError

/-- Inner `_remove` of `Args.remove`: `found = self.first(x)`; when found,
`self._args.pop(found)` deletes that position. -/
def Args.removeStep (l : List String) (x : StrArg) : List String :=
  match Args.first l x with
  | some i => l.eraseIdx i
  | none => l

/-- `Args.remove`: for a collection the loop runs once per item but calls
`_remove(x)` with the whole collection each time (the latent defect noted
in the spec); for a single value it is one `_remove`. -/
def Args.remove (l : List String) (x : StrArg) : List String :=
  match x with
  | .str _ => Args.removeStep l x
  | .list xs => xs.foldl (fun acc _ => Args.removeStep acc x) l

/-- Python `self._args.pop(i)` with an integer index: negative wrapping,
`none` on `IndexError` (also returns the mutated list). -/
def pyPop (l : List String) (i : Int) : Option (String × List String) :=
  let j := if i < 0 then i + (l.length : Int) else i
  if 0 ≤ j then
    match l.get? j.toNat with
    | some v => some (v, l.eraseIdx j.toNat)
    | none => none
  else none

/-- `Args.start_with`: all arguments beginning with the given string.  In
the collection branch the code tests `arg.startswith(x)` with `x` the
whole list, which raises `TypeError` in Python as soon as one element is
examined with a non-empty candidate list. -/
def Args.start_with (l : List String) (x : StrArg) : Except PyErr (List String) :=
  match x with
  | .str s => Except.ok (l.filter (fun a => strStarts a s))
  | .list xs =>
    if xs.isEmpty || l.isEmpty then Except.ok []
    else Except.error PyErr.typeError

/-- `Args.all_without`: all arguments not containing the given string; in
the collection branch an argument is kept when some candidate is not
contained in it. -/
def Args.all_without (l : List String) (x : StrArg) : List String :=
  match x with
  | .str s => l.filter (fun a => !(strIn s a))
  | .list xs => l.filter (fun a => xs.any (fun s => !(strIn s a)))

/-- `Args.flags`: `self.start_with('-')`. -/
def Args.flags (l : List String) : Except PyErr (List String) :=
  Args.start_with l (.str "-")

/-- `Args.not_flags`: `self.all_without('-')`. -/
def Args.not_flags (l : List String) : List String :=
  Args.all_without l (.str "-")

/-- The `OrderedDict` built by `Args.grouped`: an insertion-ordered
association list from flag tokens (or the sentinel key `"_"`) to the
grouped arguments. -/
abbrev GroupMap : Type := List (String × List String)

/-- `OrderedDict.setdefault(k, Args(no_argv=True))`: keep an existing
entry, otherwise insert `(k, [])` at the end. -/
def alistSetdefault (m : GroupMap) (k : String) : GroupMap :=
  if (List.any m (fun p => p.1 == k)) then m else m ++ [(k, [])]

/-- `collection[k]._args.append(v)`: append `v` to the entry of key `k`
(in `grouped` the key is always present when this runs). -/
def alistAppend (m : GroupMap) (k v : String) : GroupMap :=
  List.map (fun p => if p.1 == k then (p.1, p.2 ++ [v]) else p) m

/-- The `for arg in self.all` loop of `Args.grouped`: a token starting
with `-` opens (or re-opens) a group; other tokens attach to the current
group, or to the sentinel when no group is open (`if _current_group:` is
Python truthiness, so an empty-string group would also fall through to
the sentinel — group names always start with `-`, hence are non-empty). -/
def Args.groupedGo : List String → GroupMap → Option String → GroupMap
  | [], m, _ => m
  | a :: rest, m, cur =>
    if strStarts a "-" then
      Args.groupedGo rest (alistSetdefault m a) (some a)
    else
      match cur with
      | some g =>
        if g.isEmpty then Args.groupedGo rest (alistAppend m "_" a) cur
        else Args.groupedGo rest (alistAppend m g a) cur
      | none => Args.groupedGo rest (alistAppend m "_" a) cur

/-- `Args.grouped`: starts from `OrderedDict(_=Args(no_argv=True))` with
no current group. -/
def Args.grouped (l : List String) : GroupMap :=
  Args.groupedGo l [("_", [])] none

/-- A heap of Python list objects, for the operations whose behaviour
depends on object identity: an `Args` object is the index (reference) of
the list cell its `_args` attribute points to. -/
structure Heap where
  cells : List (List String)
deriving DecidableEq, Repr

/-- Dereference a list object. -/
def Heap.read (h : Heap) (r : Nat) : List String :=
  (h.cells.get? r).getD []

/-- Overwrite the contents of a list object (in-place mutation). -/
def Heap.write (h : Heap) (r : Nat) (v : List String) : Heap :=
  ⟨h.cells.set r v⟩

/-- Allocate a fresh list object. -/
def Heap.alloc (h : Heap) (v : List String) : Heap × Nat :=
  (⟨h.cells ++ [v]⟩, h.cells.length)

/-- The sequence held by a freshly produced `Args` object. -/
def Heap.readNew (p : Heap × Nat) : List String :=
  p.1.read p.2

/-- `Args.__init__(args, no_argv)` over the heap.  `args` is `None` or a
reference to a caller-owned list.  `if not args:` is Python truthiness, so
an empty referenced list takes the default branch; `argv[1:]` and `[]`
build fresh lists, while `self._args = args` stores the caller's list by
reference (aliasing). -/
def Args.initH (h : Heap) (argvTail : List String) (args : Option Nat)
    (noArgv : Bool) : Heap × Nat :=
  match args with
  | some r =>
    if (h.read r).isEmpty then
      if noArgv then h.alloc [] else h.alloc argvTail
    else (h, r)
  | none => if noArgv then h.alloc [] else h.alloc argvTail

/-- `Args.copy`: `Args(self.all)` — the constructor is called with a
reference to the current `_args` list and the default `no_argv=False`. -/
def Args.copyH (h : Heap) (argvTail : List String) (r : Nat) : Heap × Nat :=
  Args.initH h argvTail (some r) false

/-- `Args.pop(i)` over the heap: mutates the referenced list in place and
returns the removed element, `none` on `IndexError`. -/
def Args.popH (h : Heap) (r : Nat) (i : Int) : Heap × Option String :=
  match pyPop (h.read r) i with
  | some (v, l2) => (h.write r l2, some v)
  | none => (h, none)

/-- A candidate is skipped by the `first_with` loop when its search misses
or hits only at index 0 (Python `if found:` truthiness). -/
def skipsCandidate (l : List String) (y : String) : Prop :=
  Args.findSub l y = none ∨ Args.findSub l y = some 0

/-- Reading back a freshly allocated cell yields the allocated list. -/
theorem Heap.readNew_alloc (h : Heap) (v : List String) :
    Heap.readNew (h.alloc v) = v := by
  simp [Heap.readNew, Heap.alloc, Heap.read]

/-- The `find the element, then index it` pattern of the inner `_find`
loops equals a direct first-index search. -/
theorem find_findIdx_eq (p : String → Bool) (l : List String) :
    (match l.find? p with
     | some a => l.findIdx? (fun b => b == a)
     | none => none) = l.findIdx? p := by
  induction l with
  | nil => rfl
  | cons a t ih =>
    by_cases hp : p a
    · simp [List.find?_cons, hp, List.findIdx?_cons]
    · rw [List.find?_cons_of_neg _ (by simp [hp])]
      cases hf : t.find? p with
      | none =>
        have ht : t.findIdx? p = none := by
          rw [List.findIdx?_eq_none_iff]
          intro x hx
          have := List.find?_eq_none.mp hf x hx
          simp [this]
        simp [List.findIdx?_cons, hp, ht]
      | some b =>
        have hpb : p b := List.find?_some hf
        have hab : (a == b) = false :=
          beq_eq_false_iff_ne.mpr (fun h => hp (by rw [h]; exact hpb))
        have hrw : t.findIdx? (fun c => c == b) = t.findIdx? p := by
          have := ih
          rw [hf] at this
          exact this
        simp [List.findIdx?_cons, hp, hab, hrw]

/-- `Args.findSub` is the first index whose element contains `x`. -/
theorem findSub_eq (l : List String) (x : String) :
    Args.findSub l x = l.findIdx? (fun a => strIn x a) := by
  rw [Args.findSub, find_findIdx_eq]

/-- An exact-match search misses exactly when the value is not stored. -/
theorem findEq_eq_none (l : List String) (x : String) :
    Args.findEq l x = none ↔ x ∉ l := by
  rw [Args.findEq, List.findIdx?_eq_none_iff]
  constructor
  · intro h hx
    have := h x hx
    simp at this
  · intro h a ha
    simp only [beq_eq_false_iff_ne]
    intro hax
    exact h (hax ▸ ha)

/-- Single-string `remove` is first-occurrence erasure. -/
theorem removeStr_eq_erase (l : List String) (x : String) :
    Args.remove l (.str x) = l.erase x := by
  show (match Args.findEq l x with
        | some i => l.eraseIdx i
        | none => l) = l.erase x
  induction l with
  | nil => rfl
  | cons a t ih =>
    by_cases hax : a = x
    · subst hax
      simp [Args.findEq, List.findIdx?_cons, List.erase_cons_head]
    · have hbeq : (a == x) = false := beq_eq_false_iff_ne.mpr hax
      have hstep : Args.findEq (a :: t) x = (Args.findEq t x).map (· + 1) := by
        simp [Args.findEq, List.findIdx?_cons, hbeq]
      rw [List.erase_cons_tail (by simp [hbeq])]
      cases hfind : Args.findEq t x with
      | none =>
        rw [hfind] at ih
        have ih2 : t = t.erase x := ih
        rw [hstep, hfind]
        show a :: t = a :: t.erase x
        exact congrArg (fun z => a :: z) ih2
      | some i =>
        rw [hfind] at ih
        have ih2 : t.eraseIdx i = t.erase x := ih
        rw [hstep, hfind]
        show a :: t.eraseIdx i = a :: t.erase x
        exact congrArg (fun z => a :: z) ih2

/-- C1: the claim says `copy` owns an independent sequence.  In the code,
`copy` is `Args(self.all)` and the constructor stores a non-empty argument
list by reference, so the copy aliases the original: popping index 0 of
the copy of `Args(["a","b"])` (heap cell 0) leaves the original's
sequence as `["b"]` — its contents and length did change. -/
theorem copy_aliases_original :
    (Args.copyH ⟨[["a", "b"]]⟩ [] 0).2 = 0 ∧
    (Heap.read ⟨[["a", "b"]]⟩ 0 = ["a", "b"]) ∧
    ((Args.popH (Args.copyH ⟨[["a", "b"]]⟩ [] 0).1
        (Args.copyH ⟨[["a", "b"]]⟩ [] 0).2 0).1.read 0 = ["b"]) := by
  decide

/-- C2: the claim says a containment miss yields the absent value.  In the
code `get_with` evaluates `self.all[self.first_with(x)]` unguarded, so a
miss indexes by `None` and raises `TypeError`: on `Args(["a","b"])` with
substring `"z"` (contained in no element) the search is absent and the
call errors instead of returning an absent value. -/
theorem get_with_raises_on_miss :
    Args.first_with ["a", "b"] (.str "z") = none ∧
    Args.get_with ["a", "b"] (.str "z") = Except.error PyErr.typeError := by
  exact ⟨rfl, rfl⟩

/-- C3 counterexample: constructing from an explicitly supplied empty list
with `no_argv=False` does not give a length-0 list: `if not args:` treats
the empty list as absent, so the result is the ambient argv tail (here
`["x"]`, length 1). -/
theorem init_empty_list_uses_argv :
    Heap.readNew (Args.initH ⟨[[]]⟩ ["x"] (some 0) false) = ["x"] ∧
    (Heap.readNew (Args.initH ⟨[[]]⟩ ["x"] (some 0) false)).length = 1 := by
  decide

/-- C3 amended: a non-empty explicit sequence is stored exactly (by
reference); an explicitly supplied empty list is treated as if no sequence
was given, so with `no_argv=False` the result is the ambient argv tail and
only with `no_argv=True` is it empty. -/
theorem init_spec (h : Heap) (t : List String) (r : Nat) (b : Bool) :
    ((h.read r).isEmpty = false → Args.initH h t (some r) b = (h, r)) ∧
    ((h.read r).isEmpty = true →
      Heap.readNew (Args.initH h t (some r) false) = t) ∧
    ((h.read r).isEmpty = true →
      Heap.readNew (Args.initH h t (some r) true) = []) := by
  refine ⟨fun he => ?_, fun he => ?_, fun he => ?_⟩
  · simp [Args.initH, he]
  · simp [Args.initH, he, Heap.readNew_alloc]
  · simp [Args.initH, he, Heap.readNew_alloc]

/-- C3 amended, witnessed at concrete inputs: a non-empty list `["a"]` is
stored as is; an empty cell with `no_argv=False` yields the argv tail. -/
theorem init_spec_witness :
    Args.initH ⟨[["a"], []]⟩ ["x"] (some 0) false = (⟨[["a"], []]⟩, 0) ∧
    Heap.readNew (Args.initH ⟨[["a"], []]⟩ ["x"] (some 1) false) = ["x"] :=
  ⟨(init_spec ⟨[["a"], []]⟩ ["x"] 0 false).1 (by decide),
   (init_spec ⟨[["a"], []]⟩ ["x"] 1 false).2.1 (by decide)⟩

/-- C5 counterexample: the claim calls every integer outside
`0 <= i < length` out of bounds and expects the absent value, but Python
indexing wraps negative indices: on `["a"]` the index `-1` is outside
`[0, 1)` yet `get` returns `"a"`. -/
theorem get_neg_index_not_absent :
    Args.get ["a"] (-1) = some "a" ∧ (-1 : Int) < 0 := by
  exact ⟨rfl, by decide⟩

/-- C5 amended: for `0 <= i < length`, `get i` is the i-th stored token;
for `i >= length` or `i < -length` it is absent; for
`-length <= i < 0` it is the `(length + i)`-th token (Python negative
indexing), not absent. -/
theorem get_spec (l : List String) (i : Int) :
    (0 ≤ i → i < l.length → ∃ v, Args.get l i = some v ∧ l.get? i.toNat = some v) ∧
    ((l.length : Int) ≤ i → Args.get l i = none) ∧
    (i < -(l.length : Int) → Args.get l i = none) ∧
    (-(l.length : Int) ≤ i → i < 0 → Args.get l i = l.get? (i + l.length).toNat) := by
  refine ⟨fun h0 h1 => ?_, fun h => ?_, fun h => ?_, fun h0 h1 => ?_⟩
  · have hne : ¬ i < 0 := by omega
    have hlt : i.toNat < l.length := by omega
    refine ⟨l.get ⟨i.toNat, hlt⟩, ?_, List.get?_eq_get hlt⟩
    simp only [Args.get, hne, if_false, if_pos h0]
    exact List.get?_eq_get hlt
  · have hne : ¬ i < 0 := by omega
    have h0 : (0 : Int) ≤ i := by omega
    simp only [Args.get, hne, if_false, if_pos h0]
    rw [List.get?_eq_none]
    omega
  · have hlt : i < 0 := by omega
    have hns : ¬ (0 : Int) ≤ i + l.length := by omega
    simp only [Args.get, hlt, if_true, hns, if_false]
  · have hge : (0 : Int) ≤ i + l.length := by omega
    simp only [Args.get, h1, if_true, if_pos hge]

/-- C5 amended, witnessed on `["a","b"]`: index 1 is in bounds, 5 and -3
are absent, and -1 wraps to index 1. -/
theorem get_spec_witness :
    (∃ v, Args.get ["a", "b"] 1 = some v ∧ ["a", "b"].get? (1 : Int).toNat = some v) ∧
    Args.get ["a", "b"] 5 = none ∧
    Args.get ["a", "b"] (-3) = none ∧
    Args.get ["a", "b"] (-1) = ["a", "b"].get? ((-1 : Int) + ["a", "b"].length).toNat :=
  ⟨(get_spec ["a", "b"] 1).1 (by decide) (by decide),
   (get_spec ["a", "b"] 5).2.1 (by decide),
   (get_spec ["a", "b"] (-3)).2.2.1 (by decide),
   (get_spec ["a", "b"] (-1)).2.2.2 (by decide) (by decide)⟩

/-- C6: `any_contain` is `bool(first_with(x))`, so it is true exactly when
the first containing index is strictly positive; an index-0 hit and a miss
both evaluate to false. -/
theorem any_contain_pos_index (l : List String) (x : String) :
    (Args.any_contain l (.str x) = true ↔
      ∃ i, Args.first_with l (.str x) = some i ∧ 0 < i) ∧
    (Args.first_with l (.str x) = some 0 → Args.any_contain l (.str x) = false) ∧
    (Args.first_with l (.str x) = none → Args.any_contain l (.str x) = false) := by
  refine ⟨?_, fun h => ?_, fun h => ?_⟩
  · cases h : Args.first_with l (.str x) with
    | none => simp [Args.any_contain, Args.first_with] at h ⊢; simp [h]
    | some i =>
      simp only [Args.any_contain, Args.first_with] at h ⊢
      rw [h]
      constructor
      · intro hi
        exact ⟨i, rfl, Nat.pos_of_ne_zero (by simpa using hi)⟩
      · rintro ⟨j, hj, hjpos⟩
        cases hj
        simpa using Nat.pos_iff_ne_zero.mp hjpos
  · simp only [Args.any_contain, Args.first_with] at h ⊢
    rw [h]
    simp
  · simp only [Args.any_contain, Args.first_with] at h ⊢
    rw [h]

/-- C6 witnessed: in `["cd","ab"]` the substring `"a"` first occurs at
index 1 > 0, so `any_contain` is true there; in `["ab","cd"]` it occurs
only at index 0, and `any_contain` is false. -/
theorem any_contain_pos_index_witness :
    Args.any_contain ["cd", "ab"] (.str "a") = true ∧
    Args.any_contain ["ab", "cd"] (.str "a") = false :=
  ⟨(any_contain_pos_index ["cd", "ab"] "a").1.mpr ⟨1, by decide, by decide⟩,
   (any_contain_pos_index ["ab", "cd"] "a").2.1 (by decide)⟩

/-- C7: when `x` occurs exactly once, `remove(x)` then `contains(x)` is
false and the length drops by exactly one. -/
theorem remove_once_not_contains (l : List String) (x : String)
    (h : l.count x = 1) :
    Args.contains (Args.remove l (.str x)) (.str x) = false ∧
    (Args.remove l (.str x)).length + 1 = l.length := by
  have hmem : x ∈ l := by
    rw [← List.count_pos_iff]
    omega
  rw [removeStr_eq_erase]
  constructor
  · have hcount : (l.erase x).count x = 0 := by
      rw [List.count_erase_self]
      omega
    have hnot : x ∉ l.erase x := by
      rw [← List.count_eq_zero]
      exact hcount
    have hfind : Args.findEq (l.erase x) x = none := (findEq_eq_none _ x).mpr hnot
    show (match Args.findEq (l.erase x) x with
          | some _ => true
          | none => false) = false
    rw [hfind]
  · have := List.length_erase_of_mem hmem
    have hpos : 0 < l.length := List.length_pos.mpr (by rintro rfl; simp at hmem)
    omega

/-- C7 witnessed on `["a","b"]` with `x = "a"`, which occurs exactly
once. -/
theorem remove_once_not_contains_witness :
    ["a", "b"].count "a" = 1 ∧
    (Args.contains (Args.remove ["a", "b"] (.str "a")) (.str "a") = false ∧
     (Args.remove ["a", "b"] (.str "a")).length + 1 = ["a", "b"].length) :=
  ⟨by decide, remove_once_not_contains ["a", "b"] "a" (by decide)⟩

/-- C9: `flags` is exactly `start_with("-")` and `not_flags` is exactly
`all_without("-")` (substring exclusion); on `["-a","b","-c"]` they give
`["-a","-c"]` and `["b"]`. -/
theorem flags_not_flags_spec (l : List String) :
    Args.flags l = Args.start_with l (.str "-") ∧
    Args.not_flags l = Args.all_without l (.str "-") ∧
    Args.flags ["-a", "b", "-c"] = Except.ok ["-a", "-c"] ∧
    Args.not_flags ["-a", "b", "-c"] = ["b"] :=
  ⟨rfl, rfl, rfl, rfl⟩

/-- The candidate loop of `first_with` returns `none` exactly when every
candidate is skipped. -/
theorem firstWithList_eq_none (l : List String) (xs : List String) :
    Args.firstWithList l xs = none ↔ ∀ x ∈ xs, skipsCandidate l x := by
  induction xs with
  | nil => simp [Args.firstWithList]
  | cons x xs ih =>
    cases h : Args.findSub l x with
    | none =>
      simp only [Args.firstWithList, h, List.mem_cons, forall_eq_or_imp]
      rw [ih]
      simp [skipsCandidate, h]
    | some i =>
      cases i with
      | zero =>
        simp only [Args.firstWithList, h, Nat.lt_irrefl, if_false,
          List.mem_cons, forall_eq_or_imp]
        rw [ih]
        simp [skipsCandidate, h]
      | succ n =>
        simp only [Args.firstWithList, h, Nat.succ_pos, if_true,
          List.mem_cons, forall_eq_or_imp]
        constructor
        · intro habs
          exact absurd habs (by simp)
        · rintro ⟨hx, -⟩
          rcases hx with hx | hx <;> simp [skipsCandidate, h] at hx

/-- The candidate loop of `first_with` returns `some i` exactly when `i`
is positive and some candidate finds `i`, with every earlier candidate
skipped. -/
theorem firstWithList_eq_some (l : List String) (xs : List String) (i : Nat) :
    Args.firstWithList l xs = some i ↔
      0 < i ∧ ∃ pre x post, xs = pre ++ x :: post ∧ Args.findSub l x = some i ∧
        ∀ y ∈ pre, skipsCandidate l y := by
  induction xs with
  | nil =>
    simp only [Args.firstWithList]
    constructor
    · intro habs
      exact absurd habs (by simp)
    · rintro ⟨-, pre, x, post, habs, -, -⟩
      exact absurd habs.symm (by simp)
  | cons x xs ih =>
    have step :
        (∃ pre y post, x :: xs = pre ++ y :: post ∧ Args.findSub l y = some i ∧
            ∀ z ∈ pre, skipsCandidate l z) ↔
          (Args.findSub l x = some i ∨
            (skipsCandidate l x ∧
              ∃ pre y post, xs = pre ++ y :: post ∧ Args.findSub l y = some i ∧
                ∀ z ∈ pre, skipsCandidate l z)) := by
      constructor
      · rintro ⟨pre, y, post, heq, hy, hpre⟩
        cases pre with
        | nil =>
          simp only [List.nil_append, List.cons.injEq] at heq
          exact Or.inl (heq.1 ▸ hy)
        | cons p pre2 =>
          simp only [List.cons_append, List.cons.injEq] at heq
          refine Or.inr ⟨heq.1 ▸ hpre p (by simp), pre2, y, post, heq.2, hy, ?_⟩
          intro z hz
          exact hpre z (by simp [hz])
      · rintro (hx | ⟨hskip, pre, y, post, heq, hy, hpre⟩)
        · exact ⟨[], x, xs, rfl, hx, by simp⟩
        · refine ⟨x :: pre, y, post, by simp [heq], hy, ?_⟩
          intro z hz
          rcases List.mem_cons.mp hz with rfl | hz2
          · exact hskip
          · exact hpre z hz2
    cases h : Args.findSub l x with
    | none =>
      simp only [Args.firstWithList, h]
      rw [ih, step]
      constructor
      · rintro ⟨hi, hrest⟩
        exact ⟨hi, Or.inr ⟨Or.inl h, hrest⟩⟩
      · rintro ⟨hi, hx | ⟨-, hrest⟩⟩
        · rw [h] at hx
          exact absurd hx (by simp)
        · exact ⟨hi, hrest⟩
    | some j =>
      cases j with
      | zero =>
        simp only [Args.firstWithList, h, Nat.lt_irrefl, if_false]
        rw [ih, step]
        constructor
        · rintro ⟨hi, hrest⟩
          exact ⟨hi, Or.inr ⟨Or.inr h, hrest⟩⟩
        · rintro ⟨hi, hx | ⟨-, hrest⟩⟩
          · rw [h] at hx
            have : i = 0 := by simpa using hx.symm
            omega
          · exact ⟨hi, hrest⟩
      | succ n =>
        simp only [Args.firstWithList, h, Nat.succ_pos, if_true]
        rw [step]
        constructor
        · intro hsome
          have hin : i = n + 1 := by simpa using hsome.symm
          exact ⟨by omega, Or.inl (by rw [h, hin])⟩
        · rintro ⟨hi, hx | ⟨hskip, -⟩⟩
          · rw [h] at hx
            simpa using hx
          · rcases hskip with hs | hs <;> rw [h] at hs <;> simp at hs

/-- C4 counterexample: the claim says a containing match at index 0 counts
and absence means no candidate matched; but on `["ab"]` with candidate
list `["a"]` the candidate matches at index 0 and `first_with` still
returns the absent value. -/
theorem first_with_skips_index_zero :
    Args.findSub ["ab"] "a" = some 0 ∧
    Args.first_with ["ab"] (.list ["a"]) = none := by
  decide

/-- C4 amended: `first_with` on a candidate list scans candidates in
order, but a hit at index 0 is falsy (`if found:`) and is skipped like a
miss: the result is `some i` exactly when `i > 0` is found for the first
candidate that is not skipped, and absent exactly when every candidate
misses or matches only at index 0. -/
theorem first_with_list_spec (l : List String) (xs : List String) :
    (∀ i, Args.first_with l (.list xs) = some i ↔
      0 < i ∧ ∃ pre x post, xs = pre ++ x :: post ∧ Args.findSub l x = some i ∧
        ∀ y ∈ pre, skipsCandidate l y) ∧
    (Args.first_with l (.list xs) = none ↔ ∀ x ∈ xs, skipsCandidate l x) :=
  ⟨fun i => firstWithList_eq_some l xs i, firstWithList_eq_none l xs⟩

/-- C4 amended, witnessed: in `["ab","zb"]` the candidate `"q"` misses,
then `"z"` hits at index 1 > 0, so the result is `some 1`. -/
theorem first_with_list_spec_witness :
    Args.first_with ["ab", "zb"] (.list ["q", "z"]) = some 1 :=
  ((first_with_list_spec ["ab", "zb"] ["q", "z"]).1 1).mpr
    ⟨by decide, ["q"], "z", [], rfl, by decide, by
      intro y hy
      have hyq : y = "q" := List.mem_singleton.mp hy
      subst hyq
      exact Or.inl rfl⟩

/-- Appending a value into an existing group leaves the key sequence
unchanged. -/
theorem alistAppend_keys (m : GroupMap) (k v : String) :
    (alistAppend m k v).map Prod.fst = m.map Prod.fst := by
  induction m with
  | nil => rfl
  | cons p m ih =>
    simp only [alistAppend, List.map_cons] at ih ⊢
    rw [ih]
    by_cases hp : p.1 == k <;> simp [hp]

/-- `setdefault` either keeps the key sequence or appends the new key. -/
theorem alistSetdefault_keys (m : GroupMap) (k : String) :
    (alistSetdefault m k).map Prod.fst = m.map Prod.fst ∨
    (alistSetdefault m k).map Prod.fst = m.map Prod.fst ++ [k] := by
  unfold alistSetdefault
  split
  · exact Or.inl rfl
  · exact Or.inr (by simp)

/-- Keys present in the accumulator stay present through the `grouped`
loop. -/
theorem groupedGo_keys (rest : List String) (m : GroupMap) (cur : Option String)
    (k : String) (hk : k ∈ m.map Prod.fst) :
    k ∈ (Args.groupedGo rest m cur).map Prod.fst := by
  induction rest generalizing m cur with
  | nil => simpa [Args.groupedGo] using hk
  | cons a rest ih =>
    by_cases hs : strStarts a "-"
    · have hunf : Args.groupedGo (a :: rest) m cur =
          Args.groupedGo rest (alistSetdefault m a) (some a) := by
        simp [Args.groupedGo, hs]
      rw [hunf]
      apply ih
      rcases alistSetdefault_keys m a with h | h <;> rw [h]
      · exact hk
      · exact List.mem_append_left _ hk
    · cases cur with
      | none =>
        have hunf : Args.groupedGo (a :: rest) m none =
            Args.groupedGo rest (alistAppend m "_" a) none := by
          simp [Args.groupedGo, hs]
        rw [hunf]
        apply ih
        rw [alistAppend_keys]
        exact hk
      | some g =>
        by_cases hg : g.isEmpty
        · have hunf : Args.groupedGo (a :: rest) m (some g) =
              Args.groupedGo rest (alistAppend m "_" a) (some g) := by
            simp [Args.groupedGo, hs, hg]
          rw [hunf]
          apply ih
          rw [alistAppend_keys]
          exact hk
        · have hunf : Args.groupedGo (a :: rest) m (some g) =
              Args.groupedGo rest (alistAppend m g a) (some g) := by
            simp [Args.groupedGo, hs, hg]
          rw [hunf]
          apply ih
          rw [alistAppend_keys]
          exact hk

/-- C8: `grouped` on `["-a","1","2","-b","3"]` yields exactly the three
groups, in order, with the sentinel first; and for every input the
sentinel ungrouped key `"_"` is present. -/
theorem grouped_example_and_sentinel (l : List String) :
    Args.grouped ["-a", "1", "2", "-b", "3"] =
      [("_", []), ("-a", ["1", "2"]), ("-b", ["3"])] ∧
    "_" ∈ (Args.grouped l).map Prod.fst :=
  ⟨by decide, groupedGo_keys l [("_", [])] none "_" (by decide)⟩

/-- `setdefault` keeps the key sequence duplicate-free: a key is only
appended when it is not already present. -/
theorem alistSetdefault_nodup (m : GroupMap) (k : String)
    (h : (m.map Prod.fst).Nodup) :
    ((alistSetdefault m k).map Prod.fst).Nodup := by
  unfold alistSetdefault
  split
  · exact h
  · rename_i hany
    have hk : k ∉ m.map Prod.fst := by
      intro hmem
      rcases List.mem_map.mp hmem with ⟨p, hp, hpk⟩
      exact hany (List.any_eq_true.mpr ⟨p, hp, by simp [hpk]⟩)
    rw [List.map_append]
    simp [List.nodup_append, h, hk]

/-- The `grouped` loop keeps the key sequence duplicate-free. -/
theorem groupedGo_keys_nodup (rest : List String) (m : GroupMap)
    (cur : Option String) (h : (m.map Prod.fst).Nodup) :
    ((Args.groupedGo rest m cur).map Prod.fst).Nodup := by
  induction rest generalizing m cur with
  | nil => simpa [Args.groupedGo] using h
  | cons a rest ih =>
    by_cases hs : strStarts a "-"
    · have hunf : Args.groupedGo (a :: rest) m cur =
          Args.groupedGo rest (alistSetdefault m a) (some a) := by
        simp [Args.groupedGo, hs]
      rw [hunf]
      exact ih _ _ (alistSetdefault_nodup m a h)
    · cases cur with
      | none =>
        have hunf : Args.groupedGo (a :: rest) m none =
            Args.groupedGo rest (alistAppend m "_" a) none := by
          simp [Args.groupedGo, hs]
        rw [hunf]
        exact ih _ _ (by rw [alistAppend_keys]; exact h)
      | some g =>
        by_cases hg : g.isEmpty
        · have hunf : Args.groupedGo (a :: rest) m (some g) =
              Args.groupedGo rest (alistAppend m "_" a) (some g) := by
            simp [Args.groupedGo, hs, hg]
          rw [hunf]
          exact ih _ _ (by rw [alistAppend_keys]; exact h)
        · have hunf : Args.groupedGo (a :: rest) m (some g) =
              Args.groupedGo rest (alistAppend m g a) (some g) := by
            simp [Args.groupedGo, hs, hg]
          rw [hunf]
          exact ih _ _ (by rw [alistAppend_keys]; exact h)

/-- C10: a repeated flag keeps its single entry: on
`["-a","1","-b","2","-a","3"]` the value `"3"` after the second `"-a"` is
appended to the group opened at the first `"-a"`, keys stay in
first-occurrence order, and for every input the key sequence of `grouped`
is duplicate-free. -/
theorem grouped_repeated_flag (l : List String) :
    Args.grouped ["-a", "1", "-b", "2", "-a", "3"] =
      [("_", []), ("-a", ["1", "3"]), ("-b", ["2"])] ∧
    ((Args.grouped l).map Prod.fst).Nodup :=
  ⟨by decide, groupedGo_keys_nodup l [("_", [])] none (by decide)⟩
